import Mathlib

/-!
Verification of the tinydbg k-mer / de Bruijn membership-index library.

The development shallowly embeds the Rust sources:
- src/kmer.rs : 2-bit base codec, packed integer k-mers, sliding-window
  iterator, reverse complement and canonicalization;
- src/dbg.rs  : three membership-index backends (hash set, dense bit
  vector, sparse Elias-Fano rank/select) behind one builder/query contract.

Machine integers of width W are embedded as Nat with an explicit `% 2 ^ W`
at the operations where wrap-around can occur.  Byte values are Nat
(65 = 'A', 67 = 'C', 71 = 'G', 84 = 'T').
-/

namespace TinyDbg

/-! ## Base codec (src/kmer.rs, `impl Base for u8/u16/u32/u64/u128`) -/

/-- Embeds `Base::from_char`: match on the byte, returning the 2-bit code
for A/C/G/T and `None` for every other byte. -/
def fromChar (b : Nat) : Option Nat :=
  if b = 65 then some 0
  else if b = 67 then some 1
  else if b = 71 then some 2
  else if b = 84 then some 3
  else none

/-- Embeds `Base::to_char`: match on the code; `0b00 => b'A'`,
`0b01 => b'C'`, `0b10 => b'G'`, and the catch-all arm `_ => b'T'`. -/
def toChar (c : Nat) : Nat :=
  if c = 0 then 65
  else if c = 1 then 67
  else if c = 2 then 71
  else 84

/-- Embeds `Base::bases`: the fixed enumeration `[0, 1, 2, 3]`. -/
def bases : List Nat := [0, 1, 2, 3]

/-! ## Packed integer k-mers (src/kmer.rs, `impl Kmer<K, $t> for IntKmer<K, $t>`)

An `IntKmer<K, T>` is a single unsigned integer of the backing width
`W` (8/16/32/64/128 bits); we carry `K` and `W` as explicit parameters. -/

/-- Embeds `IntKmer::mask`: `(1 << (2 * K)) - 1` computed on the W-bit
backing type.  When `2 * K < W` this is the low-`2 * K`-bits mask
`2 ^ (2 * K) - 1`.  When `2 * K = W` the source shift amount equals the
bit width, which Rust treats as shift overflow: a panic in debug builds,
and the shift amount masked modulo `W` in release builds, so the mask
degenerates to `(1 << 0) - 1 = 0`.  The embedding follows the release
semantics and masks the shift amount modulo `W`. -/
def mask (K W : Nat) : Nat := (1 <<< ((2 * K) % W)) - 1

/-- Embeds `IntKmer::extend`: `(self.to_int() << 2) | base`, the unmasked
priming update; the left shift wraps at the backing width `W`. -/
def extend (W x b : Nat) : Nat := ((x <<< 2) % 2 ^ W) ||| b

/-- Embeds `IntKmer::append`: `((self.to_int() << 2) | base) & Self::mask()`,
the steady-state sliding-window update. -/
def append (K W x b : Nat) : Nat := (((x <<< 2) % 2 ^ W) ||| b) &&& mask K W

/-- Embeds the provided `Kmer::successors`: `T::bases().map(|base| self.append(base))`. -/
def successors (K W x : Nat) : List Nat := bases.map (append K W x)

/-! ## Sliding-window k-mer iterator (src/kmer.rs, `impl Iterator for KmerIterator`)

`KmerIterator::next` has two phases.  On the first call (`!self.init`) it
runs `for _ in 0..K`, pulling one base per round and folding it in with
`extend`, and returns `None` if the stream runs dry before `K` bases were
consumed, else `Some(kmer)`.  Every later call pulls one base, folds it in
with `append`, and yields the new k-mer, or returns `None` at end of input.
`primeGo` is the priming `for` loop, `steady` the repeated later calls, and
`kmerSeq` collects everything an iterator starting from `Self::empty()`
(= 0) yields before the first `None`. -/

/-- Embeds the priming loop of `KmerIterator::next`: `n` rounds remaining,
current window `kmer`, remaining input `bs`. -/
def primeGo (W : Nat) : Nat → Nat → List Nat → Option (Nat × List Nat)
  | 0, kmer, bs => some (kmer, bs)
  | n + 1, kmer, bs =>
    match bs with
    | [] => none
    | b :: rest => primeGo W n (extend W kmer b) rest

/-- Embeds the steady-state branch of `KmerIterator::next`, iterated until
the input list is exhausted. -/
def steady (K W : Nat) : Nat → List Nat → List Nat
  | _, [] => []
  | kmer, b :: rest =>
    let k2 := append K W kmer b
    k2 :: steady K W k2 rest

/-- Collects the full output sequence of `KmerIterator` over the base list
`bs`, starting from the empty k-mer as `Kmer::iter_from_bases` does. -/
def kmerSeq (K W : Nat) (bs : List Nat) : List Nat :=
  match primeGo W K 0 bs with
  | none => []
  | some (kmer, rest) => kmer :: steady K W kmer rest

/-! ## Helper lemmas about the codec and the window updates -/

theorem maskW_eq_pow (K W : Nat) : mask K W = 2 ^ ((2 * K) % W) - 1 := by
  simp [mask, Nat.shiftLeft_eq]

theorem mask_eq_pow (K W : Nat) (h : 2 * K < W) : mask K W = 2 ^ (2 * K) - 1 := by
  rw [maskW_eq_pow, Nat.mod_eq_of_lt h]

theorem append_eq_mod (K W x b : Nat) (hW : 2 * K < W) :
    append K W x b = ((x <<< 2) ||| b) % 2 ^ (2 * K) := by
  rw [append, mask_eq_pow K W hW, Nat.and_pow_two_sub_one_eq_mod]
  apply Nat.eq_of_testBit_eq
  intro i
  simp only [Nat.testBit_mod_two_pow, Nat.testBit_or]
  by_cases hi : i < 2 * K
  · have hiW : i < W := lt_trans hi hW
    simp [hi, hiW]
  · simp [hi]

theorem append_lt (K W x b : Nat) : append K W x b < 2 ^ (2 * K) := by
  rw [append, maskW_eq_pow, Nat.and_pow_two_sub_one_eq_mod]
  exact lt_of_lt_of_le (Nat.mod_lt _ (Nat.pos_pow_of_pos _ (by norm_num)))
    (Nat.pow_le_pow_right (by norm_num) (Nat.mod_le _ _))

/-! ## Claim theorems for the codec and the window updates -/

/-- C8: for every byte b in {A, C, G, T}, decoding then re-encoding gives
back b; every other byte decodes to `none`. -/
theorem C8_codec_roundtrip (b : Nat) :
    ((b = 65 ∨ b = 67 ∨ b = 71 ∨ b = 84) → Option.map toChar (fromChar b) = some b) ∧
    (¬(b = 65 ∨ b = 67 ∨ b = 71 ∨ b = 84) → fromChar b = none) := by
  constructor
  · rintro (rfl | rfl | rfl | rfl) <;> rfl
  · intro h
    push_neg at h
    obtain ⟨h1, h2, h3, h4⟩ := h
    simp [fromChar, h1, h2, h3, h4]

theorem C8_codec_roundtrip_witness :
    (Option.map toChar (fromChar 71) = some 71) ∧ fromChar 78 = none :=
  ⟨(C8_codec_roundtrip 71).1 (by decide), (C8_codec_roundtrip 78).2 (by decide)⟩

/-- C6 (counterexample): `to_char` applied to the out-of-range code 4 does
not abort; it falls into the catch-all match arm and returns byte 84
(= b'T').  The claim that it is a fatal abort is false. -/
theorem C6_counterexample : toChar 4 = 84 := rfl

/-- C6 (amended): `to_char` maps every code outside {0, 1, 2} — in
particular every code outside {0, 1, 2, 3} — to byte 84 (b'T') via the
catch-all match arm, returning normally instead of aborting. -/
theorem C6_to_char_catch_all (c : Nat) (h : ¬(c = 0 ∨ c = 1 ∨ c = 2 ∨ c = 3)) :
    toChar c = 84 := by
  push_neg at h
  obtain ⟨h1, h2, h3, _⟩ := h
  simp [toChar, h1, h2, h3]

theorem C6_to_char_catch_all_witness :
    ¬((9 : Nat) = 0 ∨ (9 : Nat) = 1 ∨ (9 : Nat) = 2 ∨ (9 : Nat) = 3) ∧ toChar 9 = 84 :=
  ⟨by decide, C6_to_char_catch_all 9 (by decide)⟩

/-- C5 (counterexample): the claim quantifies over every valid
configuration, which per the spec includes `2 * K = W` (its own flagship
configuration K = 4 over an 8-bit backing).  There the source mask shift
amount equals the bit width: Rust shift overflow, a debug-build panic and
a masked shift amount (mask value 0) in release builds — under the
release semantics `append 4 8 0 1 = 0`, not the claimed
`((0 << 2) | 1) & (2 ^ 8 - 1) = 1` (and under debug semantics the call
aborts instead of computing anything). -/
theorem C5_counterexample :
    append 4 8 0 1 = 0 ∧ ((0 <<< 2) ||| 1) &&& (2 ^ (2 * 4) - 1) = 1 := by
  decide

/-- C5 (amended): for every backing value x and base code b, on a
configuration with `2 * K` strictly below the backing width W, the
steady-state update `append` equals `((x << 2) | b)` masked to the low
`2 * K` bits, hence is always below `2 ^ (2 * K)`; and `successors` is
exactly the four appends taken in the fixed enumeration order 0, 1, 2, 3.
At `2 * K = W` the mask computation itself overflows its shift (debug
panic; mask 0 in release), so that boundary is excluded. -/
theorem C5_append_successors (K W x b : Nat) (hW : 2 * K < W) (_hx : x < 2 ^ W)
    (_hb : b < 4) :
    append K W x b = ((x <<< 2) ||| b) &&& (2 ^ (2 * K) - 1) ∧
    append K W x b < 2 ^ (2 * K) ∧
    successors K W x = [append K W x 0, append K W x 1, append K W x 2, append K W x 3] := by
  refine ⟨?_, append_lt K W x b, rfl⟩
  rw [append_eq_mod K W x b hW, Nat.and_pow_two_sub_one_eq_mod]

theorem C5_append_successors_witness :
    2 * 2 < 8 ∧ (200 : Nat) < 2 ^ 8 ∧ (3 : Nat) < 4 ∧
    (append 2 8 200 3 = ((200 <<< 2) ||| 3) &&& (2 ^ (2 * 2) - 1) ∧
      append 2 8 200 3 < 2 ^ (2 * 2) ∧
      successors 2 8 200 = [append 2 8 200 0, append 2 8 200 1, append 2 8 200 2, append 2 8 200 3]) :=
  ⟨by decide, by decide, by decide, C5_append_successors 2 8 200 3 (by decide) (by decide) (by decide)⟩

/-! ## The k-mer iterator yield count (claim C4) -/

theorem primeGo_eq_none (W : Nat) :
    ∀ (n kmer : Nat) (bs : List Nat), bs.length < n → primeGo W n kmer bs = none := by
  intro n
  induction n with
  | zero => intro kmer bs h; omega
  | succ m ih =>
    intro kmer bs h
    match bs with
    | [] => rfl
    | b :: rest =>
      simp only [primeGo]
      exact ih _ rest (by simpa using Nat.lt_of_succ_lt_succ h)

theorem primeGo_eq_some (W : Nat) :
    ∀ (n kmer : Nat) (bs : List Nat), n ≤ bs.length →
      ∃ k2, primeGo W n kmer bs = some (k2, bs.drop n) := by
  intro n
  induction n with
  | zero => intro kmer bs _; exact ⟨kmer, rfl⟩
  | succ m ih =>
    intro kmer bs h
    match bs with
    | [] => simp at h
    | b :: rest =>
      simp only [primeGo, List.drop_succ_cons]
      exact ih _ rest (by simpa using h)

theorem steady_length (K W : Nat) :
    ∀ (kmer : Nat) (bs : List Nat), (steady K W kmer bs).length = bs.length := by
  intro kmer bs
  induction bs generalizing kmer with
  | nil => rfl
  | cons b rest ih => simp [steady, ih]

/-- C4: over a base stream of (filtered) length L, the k-mer iterator
yields exactly max(0, L - K + 1) k-mers — expressed as the truncated
subtraction `L + 1 - K` — and in particular yields nothing when L < K. -/
theorem C4_kmer_count (K W : Nat) (bs : List Nat) :
    (kmerSeq K W bs).length = bs.length + 1 - K ∧
    (bs.length < K → kmerSeq K W bs = []) := by
  constructor
  · by_cases h : bs.length < K
    · rw [kmerSeq, primeGo_eq_none W K 0 bs h]
      simp
      omega
    · push_neg at h
      obtain ⟨k2, hk2⟩ := primeGo_eq_some W K 0 bs h
      rw [kmerSeq, hk2]
      simp [steady_length]
      omega
  · intro h
    rw [kmerSeq, primeGo_eq_none W K 0 bs h]

theorem C4_kmer_count_witness :
    ((kmerSeq 3 8 [1, 2, 3, 0]).length = [1, 2, 3, 0].length + 1 - 3 ∧
      ([1, 2, 3, 0].length < 3 → kmerSeq 3 8 [1, 2, 3, 0] = [])) ∧
    (kmerSeq 3 8 [1, 2]).length = [1, 2].length + 1 - 3 :=
  ⟨C4_kmer_count 3 8 [1, 2, 3, 0], (C4_kmer_count 3 8 [1, 2]).1⟩

/-! ## Reverse complement (src/kmer.rs, `impl Canonical<K, u8/u64> for IntKmer`)

Each width-specific `rev_comp` complements the whole backing word with
bitwise NOT, reverses the order of the 2-bit groups with a butterfly of
masked swap steps, and shifts right to drop the unused high bits. -/

/-- Embeds one masked swap line of `rev_comp`:
`res = (res >> d & M) | (res & M) << d`. -/
def swapStep (d M x : Nat) : Nat := ((x >>> d) &&& M) ||| ((x &&& M) <<< d)

/-- Embeds the bitwise NOT `!self.to_int()` on a word of width `W`:
XOR against the all-ones word. -/
def notBits (W x : Nat) : Nat := x ^^^ (2 ^ W - 1)

/-- Embeds `Canonical<K, u8>::rev_comp` line by line. -/
def revComp8 (K x : Nat) : Nat :=
  let r := notBits 8 x
  let r := swapStep 2 0x33 r
  let r := swapStep 4 0x0F r
  r >>> (2 * (4 - K))

/-- Embeds `Canonical<K, u64>::rev_comp` line by line. -/
def revComp64 (K x : Nat) : Nat :=
  let r := notBits 64 x
  let r := swapStep 2 0x3333333333333333 r
  let r := swapStep 4 0x0F0F0F0F0F0F0F0F r
  let r := swapStep 8 0x00FF00FF00FF00FF r
  let r := swapStep 16 0x0000FFFF0000FFFF r
  let r := swapStep 32 0x00000000FFFFFFFF r
  r >>> (2 * (32 - K))

/-- Embeds the provided `Canonical::canonical` over the u8 instantiation:
keep the k-mer if its integer value is below that of its reverse
complement, else take the reverse complement. -/
def canonical8 (K x : Nat) : Nat :=
  if x < revComp8 K x then x else revComp8 K x

/-- Embeds the provided `Canonical::canonical` over the u64 instantiation. -/
def canonical64 (K x : Nat) : Nat :=
  if x < revComp64 K x then x else revComp64 K x

/-! ## Bit-level analysis of the swap network

A swap step with distance `d = 2 ^ t` and the alternating mask `M`
(whose set bits are exactly the in-range positions whose bit `t` is
clear) permutes the bits of the word: the bit at position `i` moves to
position `i` with bit `t` toggled.  `sigma t` is that permutation. -/

/-- Position permutation performed by one swap step of distance `2 ^ t`:
toggle bit `t` of the position. -/
def sigma (t i : Nat) : Nat := if i.testBit t then i - 2 ^ t else i + 2 ^ t

/-- Composite position permutation of the five-step u64 butterfly. -/
def rho64 (i : Nat) : Nat := sigma 1 (sigma 2 (sigma 3 (sigma 4 (sigma 5 i))))

theorem testBit_add_pow (t j : Nat) : (j + 2 ^ t).testBit t = !j.testBit t := by
  rw [Nat.testBit_to_div_mod, Nat.testBit_to_div_mod,
    Nat.add_div_right _ (Nat.pos_pow_of_pos _ (by norm_num))]
  rcases Nat.mod_two_eq_zero_or_one (j / 2 ^ t) with h | h <;>
    rw [Nat.add_mod, h] <;> rfl

/-- Extends an exhaustively checked mask pattern on positions below `W` to
all positions. -/
theorem mask_pattern (W t M : Nat) (hlt : M < 2 ^ W)
    (hsmall : ∀ j, j < W → M.testBit j = (decide (j + 2 ^ t < W) && !j.testBit t)) :
    ∀ j, M.testBit j = (decide (j + 2 ^ t < W) && !j.testBit t) := by
  intro j
  rcases lt_or_ge j W with h | h
  · exact hsmall j h
  · have h1 : M.testBit j = false :=
      Nat.testBit_lt_two_pow (lt_of_lt_of_le hlt (Nat.pow_le_pow_right (by norm_num) h))
    have hp : 0 < 2 ^ t := Nat.pos_pow_of_pos _ (by norm_num)
    have h2 : ¬(j + 2 ^ t < W) := by omega
    simp [h1, h2]

/-- Bits of one swap step: within the word, the step reads the bit at the
position with bit `t` toggled. -/
theorem swapStep_testBit (W t d M x : Nat) (hd : d = 2 ^ t)
    (hM : ∀ j, M.testBit j = (decide (j + 2 ^ t < W) && !j.testBit t))
    (hW : ∀ j, j < W → j.testBit t = false → j + 2 ^ t < W)
    (i : Nat) (hi : i < W) :
    (swapStep d M x).testBit i = x.testBit (sigma t i) := by
  subst hd
  simp only [swapStep, sigma, Nat.testBit_or, Nat.testBit_and, Nat.testBit_shiftRight,
    Nat.testBit_shiftLeft]
  by_cases h : i.testBit t
  · have hge : 2 ^ t ≤ i := Nat.testBit_implies_ge h
    have hsub : i - 2 ^ t + 2 ^ t = i := Nat.sub_add_cancel hge
    have hclear : (i - 2 ^ t).testBit t = false := by
      have h2 := testBit_add_pow t (i - 2 ^ t)
      rw [hsub, h] at h2
      simpa using h2.symm
    rw [hM i, hM (i - 2 ^ t), h, hclear, hsub]
    simp [h, hge, hi]
  · rw [Bool.not_eq_true] at h
    have hlt : i + 2 ^ t < W := hW i hi h
    by_cases hge : 2 ^ t ≤ i
    · have hsub : i - 2 ^ t + 2 ^ t = i := Nat.sub_add_cancel hge
      have hset : (i - 2 ^ t).testBit t = true := by
        have h2 := testBit_add_pow t (i - 2 ^ t)
        rw [hsub, h] at h2
        simpa using h2.symm
      rw [hM i, hM (i - 2 ^ t), h, hset]
      simp [hlt, Nat.add_comm]
    · rw [hM i, hM (i - 2 ^ t), h]
      simp [hlt, hge, Nat.add_comm]

/-- Output of a swap step with an in-range mask stays inside the word. -/
theorem swapStep_lt (W t d M x : Nat) (hd : d = 2 ^ t)
    (hM : ∀ j, M.testBit j = (decide (j + 2 ^ t < W) && !j.testBit t)) :
    swapStep d M x < 2 ^ W := by
  subst hd
  have hp : 0 < 2 ^ t := Nat.pos_pow_of_pos _ (by norm_num)
  apply Nat.lt_pow_two_of_testBit
  intro i hi
  simp only [swapStep, Nat.testBit_or, Nat.testBit_and, Nat.testBit_shiftRight,
    Nat.testBit_shiftLeft]
  have h1 : M.testBit i = false := by
    rw [hM i]
    have hn : ¬(i + 2 ^ t < W) := by omega
    simp [hn]
  by_cases hge : 2 ^ t ≤ i
  · have h2 : M.testBit (i - 2 ^ t) = false := by
      rw [hM (i - 2 ^ t)]
      have hn : ¬(i - 2 ^ t + 2 ^ t < W) := by omega
      simp [hn]
    simp [h1, h2]
  · simp [h1, hge]

/-- Permuted positions stay inside the word. -/
theorem sigma_lt (W t i : Nat)
    (hW : ∀ j, j < W → j.testBit t = false → j + 2 ^ t < W)
    (hi : i < W) : sigma t i < W := by
  unfold sigma
  have hp : 0 < 2 ^ t := Nat.pos_pow_of_pos _ (by norm_num)
  by_cases h : i.testBit t
  · simp only [h, if_true]
    omega
  · rw [Bool.not_eq_true] at h
    simp only [h, Bool.false_eq_true, if_false]
    exact hW i hi h

/-! ## Instantiation of the swap network at width 64 -/

theorem maskFact64_1 : ∀ j, (0x3333333333333333 : Nat).testBit j =
    (decide (j + 2 ^ 1 < 64) && !j.testBit 1) :=
  mask_pattern 64 1 _ (by norm_num) (by decide)

theorem maskFact64_2 : ∀ j, (0x0F0F0F0F0F0F0F0F : Nat).testBit j =
    (decide (j + 2 ^ 2 < 64) && !j.testBit 2) :=
  mask_pattern 64 2 _ (by norm_num) (by decide)

theorem maskFact64_3 : ∀ j, (0x00FF00FF00FF00FF : Nat).testBit j =
    (decide (j + 2 ^ 3 < 64) && !j.testBit 3) :=
  mask_pattern 64 3 _ (by norm_num) (by decide)

theorem maskFact64_4 : ∀ j, (0x0000FFFF0000FFFF : Nat).testBit j =
    (decide (j + 2 ^ 4 < 64) && !j.testBit 4) :=
  mask_pattern 64 4 _ (by norm_num) (by decide)

theorem maskFact64_5 : ∀ j, (0x00000000FFFFFFFF : Nat).testBit j =
    (decide (j + 2 ^ 5 < 64) && !j.testBit 5) :=
  mask_pattern 64 5 _ (by norm_num) (by decide)

theorem stepFits64_1 : ∀ j, j < 64 → j.testBit 1 = false → j + 2 ^ 1 < 64 := by decide

theorem stepFits64_2 : ∀ j, j < 64 → j.testBit 2 = false → j + 2 ^ 2 < 64 := by decide

theorem stepFits64_3 : ∀ j, j < 64 → j.testBit 3 = false → j + 2 ^ 3 < 64 := by decide

theorem stepFits64_4 : ∀ j, j < 64 → j.testBit 4 = false → j + 2 ^ 4 < 64 := by decide

theorem stepFits64_5 : ∀ j, j < 64 → j.testBit 5 = false → j + 2 ^ 5 < 64 := by decide

theorem rho64_lt (j : Nat) (hj : j < 64) : rho64 j < 64 := by
  unfold rho64
  exact sigma_lt 64 1 _ stepFits64_1 (sigma_lt 64 2 _ stepFits64_2 (sigma_lt 64 3 _ stepFits64_3
    (sigma_lt 64 4 _ stepFits64_4 (sigma_lt 64 5 _ stepFits64_5 hj))))

/-- Bits of the complete five-step u64 butterfly: within the word it
reads the bit at the 2-bit-group-reversed position `rho64 j`. -/
theorem net64_testBit (x j : Nat) (hj : j < 64) :
    (swapStep 32 0x00000000FFFFFFFF (swapStep 16 0x0000FFFF0000FFFF
      (swapStep 8 0x00FF00FF00FF00FF (swapStep 4 0x0F0F0F0F0F0F0F0F
        (swapStep 2 0x3333333333333333 x))))).testBit j = x.testBit (rho64 j) := by
  have h5 := sigma_lt 64 5 j stepFits64_5 hj
  have h4 := sigma_lt 64 4 _ stepFits64_4 h5
  have h3 := sigma_lt 64 3 _ stepFits64_3 h4
  have h2 := sigma_lt 64 2 _ stepFits64_2 h3
  rw [swapStep_testBit 64 5 32 0x00000000FFFFFFFF _ (by norm_num) maskFact64_5 stepFits64_5 j hj,
    swapStep_testBit 64 4 16 0x0000FFFF0000FFFF _ (by norm_num) maskFact64_4 stepFits64_4 _ h5,
    swapStep_testBit 64 3 8 0x00FF00FF00FF00FF _ (by norm_num) maskFact64_3 stepFits64_3 _ h4,
    swapStep_testBit 64 2 4 0x0F0F0F0F0F0F0F0F _ (by norm_num) maskFact64_2 stepFits64_2 _ h3,
    swapStep_testBit 64 1 2 0x3333333333333333 _ (by norm_num) maskFact64_1 stepFits64_1 _ h2]
  rfl

theorem net64_lt (x : Nat) :
    swapStep 32 0x00000000FFFFFFFF (swapStep 16 0x0000FFFF0000FFFF
      (swapStep 8 0x00FF00FF00FF00FF (swapStep 4 0x0F0F0F0F0F0F0F0F
        (swapStep 2 0x3333333333333333 x)))) < 2 ^ 64 :=
  swapStep_lt 64 5 32 _ _ (by norm_num) maskFact64_5

theorem revComp64_testBit (K x i : Nat) (hK : K ≤ 32) (hi : i < 2 * K) :
    (revComp64 K x).testBit i = !x.testBit (rho64 (2 * (32 - K) + i)) := by
  simp only [revComp64]
  rw [Nat.testBit_shiftRight, net64_testBit _ _ (by omega)]
  have hrho : rho64 (2 * (32 - K) + i) < 64 := rho64_lt _ (by omega)
  rw [notBits, Nat.testBit_xor, Nat.testBit_two_pow_sub_one]
  simp [hrho]

theorem revComp64_lt (K x : Nat) (hK : K ≤ 32) : revComp64 K x < 2 ^ (2 * K) := by
  simp only [revComp64]
  apply Nat.lt_pow_two_of_testBit
  intro i hi
  rw [Nat.testBit_shiftRight]
  exact Nat.testBit_lt_two_pow
    (lt_of_lt_of_le (net64_lt _) (Nat.pow_le_pow_right (by norm_num) (by omega)))

/-- Exhaustive check that the reversal permutation interacts with the
final right shift as an involution on the low `2 * K` positions. -/
theorem rho64_shift_spec : ∀ K, K < 33 → ∀ i, i < 64 → i < 2 * K →
    rho64 (2 * (32 - K) + i) < 2 * K ∧
    rho64 (2 * (32 - K) + rho64 (2 * (32 - K) + i)) = i := by decide

theorem revComp64_involution (K x : Nat) (hK : K ≤ 32) (hx : x < 2 ^ (2 * K)) :
    revComp64 K (revComp64 K x) = x := by
  apply Nat.eq_of_testBit_eq
  intro i
  rcases lt_or_ge i (2 * K) with hi | hi
  · obtain ⟨hlt1, heq⟩ := rho64_shift_spec K (by omega) i (by omega) hi
    rw [revComp64_testBit K _ i hK hi, revComp64_testBit K x _ hK hlt1, heq, Bool.not_not]
  · have h1 : (revComp64 K (revComp64 K x)).testBit i = false :=
      Nat.testBit_lt_two_pow
        (lt_of_lt_of_le (revComp64_lt K _ hK) (Nat.pow_le_pow_right (by norm_num) hi))
    have h2 : x.testBit i = false :=
      Nat.testBit_lt_two_pow (lt_of_lt_of_le hx (Nat.pow_le_pow_right (by norm_num) hi))
    rw [h1, h2]

/-! ## Involution at width 8, and the canonicalization properties -/

set_option maxRecDepth 8000 in
theorem revComp8_involution : ∀ K, K < 5 → ∀ x, x < 2 ^ (2 * K) →
    revComp8 K (revComp8 K x) = x := by decide

/-- Canonicalization by value comparison against any involutive companion
is idempotent and companion-symmetric. -/
theorem canonical_of_involution (f c : Nat → Nat)
    (hc : ∀ y, c y = if y < f y then y else f y) (x : Nat) (hinv : f (f x) = x) :
    c (c x) = c x ∧ c x = c (f x) := by
  by_cases h : x < f x
  · have e1 : c x = x := by rw [hc, if_pos h]
    have e2 : c (f x) = x := by rw [hc, hinv, if_neg (by omega)]
    exact ⟨by rw [e1, e1], by rw [e1, e2]⟩
  · have e1 : c x = f x := by rw [hc, if_neg h]
    have e2 : c (f x) = f x := by
      rw [hc, hinv]
      by_cases h2 : f x < x
      · rw [if_pos h2]
      · rw [if_neg h2]
        omega
    exact ⟨by rw [e1, e2], by rw [e1, e2]⟩

/-! ## Claim theorems for reverse complement and canonicalization -/

/-- C2: double reverse complement is the identity on every representable
k-mer, for the u8 instantiation (1 ≤ K ≤ 4) and the u64 instantiation
(1 ≤ K ≤ 32).  K = 0 is excluded: there the final source shift amount
equals the backing width, which Rust rejects as shift overflow. -/
theorem C2_revcomp_involution :
    (∀ K x, 1 ≤ K → K ≤ 4 → x < 2 ^ (2 * K) → revComp8 K (revComp8 K x) = x) ∧
    (∀ K x, 1 ≤ K → K ≤ 32 → x < 2 ^ (2 * K) → revComp64 K (revComp64 K x) = x) := by
  constructor
  · intro K x _ hK hx
    exact revComp8_involution K (by omega) x hx
  · intro K x _ hK hx
    exact revComp64_involution K x hK hx

theorem C2_revcomp_involution_witness :
    revComp8 4 (revComp8 4 198) = 198 ∧
    revComp64 31 (revComp64 31 123456789) = 123456789 :=
  ⟨C2_revcomp_involution.1 4 198 (by norm_num) (by norm_num) (by norm_num),
   C2_revcomp_involution.2 31 123456789 (by norm_num) (by norm_num) (by norm_num)⟩

/-- C3: canonicalization is idempotent and strand-symmetric on every
representable k-mer, for the u8 and u64 instantiations (K = 0 excluded as
in C2). -/
theorem C3_canonical_idem_symm :
    (∀ K x, 1 ≤ K → K ≤ 4 → x < 2 ^ (2 * K) →
      canonical8 K (canonical8 K x) = canonical8 K x ∧
      canonical8 K x = canonical8 K (revComp8 K x)) ∧
    (∀ K x, 1 ≤ K → K ≤ 32 → x < 2 ^ (2 * K) →
      canonical64 K (canonical64 K x) = canonical64 K x ∧
      canonical64 K x = canonical64 K (revComp64 K x)) := by
  constructor
  · intro K x _ hK hx
    exact canonical_of_involution (revComp8 K) (canonical8 K) (fun y => rfl) x
      (revComp8_involution K (by omega) x hx)
  · intro K x _ hK hx
    exact canonical_of_involution (revComp64 K) (canonical64 K) (fun y => rfl) x
      (revComp64_involution K x hK hx)

theorem C3_canonical_idem_symm_witness :
    (canonical8 4 (canonical8 4 198) = canonical8 4 198 ∧
      canonical8 4 198 = canonical8 4 (revComp8 4 198)) ∧
    (canonical64 31 (canonical64 31 123456789) = canonical64 31 123456789 ∧
      canonical64 31 123456789 = canonical64 31 (revComp64 31 123456789)) :=
  ⟨C3_canonical_idem_symm.1 4 198 (by norm_num) (by norm_num) (by norm_num),
   C3_canonical_idem_symm.2 31 123456789 (by norm_num) (by norm_num) (by norm_num)⟩

/-! ## Membership-index backends (src/dbg.rs)

Keys are the packed integer values of k-mers.  The hash backend stores a
`HashSet<T>`, embedded as the list of distinct inserted keys; the dense
backend stores a sucds `BitVector` of fixed length `1 << (2 * K)`,
embedded as a `List Bool`; the sparse backend accumulates a `BTreeSet<T>`
(embedded as the ascending list of distinct keys) and finalizes it into a
sucds `EliasFano` sequence over universe `1 << (2 * K)`.  A Rust panic
(`.expect` on a failed bit access) is embedded as `none`. -/

/-- Embeds `HashSet::insert` from `HashDbgBuilder::insert`. -/
def hashInsert (data : List Nat) (k : Nat) : List Nat :=
  if k ∈ data then data else k :: data

/-- Embeds `HashDbgBuilder::new` followed by the given inserts and the
identity `build`. -/
def hashBuild (keys : List Nat) : List Nat := keys.foldl hashInsert []

/-- Embeds `HashDbg::contains`: set membership of the raw key, total for
every key of the backing type. -/
def hashContains (data : List Nat) (k : Nat) : Bool := decide (k ∈ data)

/-- Embeds `BitVector::from_bit(false, 1 << (2 * K))` from
`DenseDbgBuilder::new`. -/
def denseNew (K : Nat) : List Bool := List.replicate (1 <<< (2 * K)) false

/-- Embeds `DenseDbgBuilder::insert`: `set_bit(pos, true)` succeeds below
the vector length, and the `.expect` call panics (`none`) otherwise. -/
def denseInsert (data : List Bool) (k : Nat) : Option (List Bool) :=
  if k < data.length then some (data.set k true) else none

/-- Embeds a dense builder run: `new()`, the given inserts, identity
`build`; `none` when some insert panicked. -/
def denseBuild (K : Nat) (keys : List Nat) : Option (List Bool) :=
  keys.foldlM denseInsert (denseNew K)

/-- Embeds `DenseDbg::contains`: `get_bit(pos)` is `Some` below the vector
length, and the `.expect` call panics (`none`) otherwise. -/
def denseContains (data : List Bool) (k : Nat) : Option Bool := data[k]?

/-- Embeds `BTreeSet::insert` on the ascending list of stored keys. -/
def btreeInsert : List Nat → Nat → List Nat
  | [], x => [x]
  | a :: rest, x =>
    if x < a then x :: a :: rest
    else if x = a then a :: rest
    else a :: btreeInsert rest x

/-- Embeds the sparse builder accumulation `SparseDbgBuilder::insert`;
`BTreeSet` iteration is ascending, so the accumulated list is exactly the
value sequence `build` hands to the Elias-Fano encoder. -/
def sparseBuild (keys : List Nat) : List Nat := keys.foldl btreeInsert []

/-- Modelled from the spec: `EliasFano::rank(pos)` of the external sucds
crate (with `enable_rank`), the count of stored keys strictly below `pos`,
defined for `pos` at most the universe size.  Spec §4.5 words the same
membership test as rank = count of keys ≤ key paired with a 1-based
select; both give the same `contains`. -/
def efRank (u : Nat) (vals : List Nat) (pos : Nat) : Option Nat :=
  if pos > u then none else some (vals.countP (fun v => decide (v < pos)))

/-- Modelled from the spec: `EliasFano::select(r)` of the external sucds
crate, the r-th smallest stored key (0-based), `None` past the end. -/
def efSelect (vals : List Nat) (r : Nat) : Option Nat := vals[r]?

/-- Embeds `SparseDbg::contains` for an Elias-Fano set with universe `u`:
compute `rank(pos)`, then verify `select(rank) == Some(pos)`; a `None`
rank yields `false`. -/
def sparseContainsEF (u : Nat) (vals : List Nat) (k : Nat) : Bool :=
  match efRank u vals k with
  | some r => decide (efSelect vals r = some k)
  | none => false

/-- Embeds `SparseDbg::contains` after a build over universe
`1 << (2 * K)`. -/
def sparseContains (K : Nat) (vals : List Nat) (k : Nat) : Bool :=
  sparseContainsEF (1 <<< (2 * K)) vals k

/-! ## Hash backend lemmas -/

theorem mem_hashInsert (data : List Nat) (a k : Nat) :
    k ∈ hashInsert data a ↔ k = a ∨ k ∈ data := by
  unfold hashInsert
  split
  · rename_i h
    constructor
    · exact Or.inr
    · rintro (rfl | h2)
      · exact h
      · exact h2
  · simp

theorem hashBuild_mem : ∀ (keys acc : List Nat) (k : Nat),
    k ∈ keys.foldl hashInsert acc ↔ k ∈ keys ∨ k ∈ acc := by
  intro keys
  induction keys with
  | nil => simp
  | cons a rest ih =>
    intro acc k
    rw [List.foldl_cons, ih, mem_hashInsert]
    simp
    tauto

/-! ## Dense backend lemmas -/

theorem getElem?_eq_some_getD (l : List Bool) (k : Nat) (hk : k < l.length) :
    l[k]? = some (l.getD k false) := by
  rw [List.getD_eq_getElem?_getD, List.getElem?_eq_getElem hk]
  rfl

theorem denseFold_spec : ∀ (keys : List Nat) (l : List Bool),
    (∀ x ∈ keys, x < l.length) →
    ∃ d, keys.foldlM denseInsert l = some d ∧ d.length = l.length ∧
      ∀ k, k < l.length → d[k]? = some (decide (k ∈ keys) || l.getD k false) := by
  intro keys
  induction keys with
  | nil =>
    intro l _
    refine ⟨l, rfl, rfl, ?_⟩
    intro k hk
    rw [getElem?_eq_some_getD l k hk]
    simp
  | cons a rest ih =>
    intro l h
    have ha : a < l.length := h a (List.mem_cons_self a rest)
    have hstep : denseInsert l a = some (l.set a true) := by
      rw [denseInsert, if_pos ha]
    obtain ⟨d, hd, hlen, hget⟩ := ih (l.set a true)
      (fun x hx => by rw [List.length_set]; exact h x (List.mem_cons_of_mem a hx))
    refine ⟨d, ?_, by rwa [List.length_set] at hlen, ?_⟩
    · rw [List.foldlM_cons, hstep]
      exact hd
    · intro k hk
      rw [hget k (by rwa [List.length_set])]
      congr 1
      have hset : (l.set a true).getD k false =
          if a = k then true else l.getD k false := by
        rw [List.getD_eq_getElem?_getD, List.getElem?_set, List.getD_eq_getElem?_getD]
        by_cases hak : a = k
        · rw [if_pos hak, if_pos hak, if_pos ha]
          rfl
        · rw [if_neg hak, if_neg hak]
      rw [hset]
      by_cases hak : a = k
      · subst hak
        simp
      · have : (k ∈ a :: rest) ↔ k ∈ rest := by
          simp [List.mem_cons]
          intro hc
          exact absurd hc.symm hak
        simp only [if_neg hak]
        rw [decide_eq_decide.mpr this]

theorem denseNew_length (K : Nat) : (denseNew K).length = 2 ^ (2 * K) := by
  simp [denseNew, Nat.shiftLeft_eq]

theorem hashBuild_contains (keys : List Nat) (k : Nat) :
    hashContains (hashBuild keys) k = decide (k ∈ keys) := by
  rw [hashContains, decide_eq_decide]
  rw [hashBuild, hashBuild_mem]
  simp

/-! ## Claim theorems for the hash and dense backends -/

/-- C10: the hash-backed contains is total over the whole backing type:
it is a plain Boolean set-membership test, never panics (there is no
failing path in the embedding, unlike the dense backend's `Option`), and
answers `false` for every key never inserted — with no range
precondition on the key. -/
theorem C10_hash_contains_total (keys : List Nat) (k : Nat) :
    hashContains (hashBuild keys) k = decide (k ∈ keys) :=
  hashBuild_contains keys k

theorem btreeInsert_mem : ∀ (l : List Nat) (x y : Nat),
    y ∈ btreeInsert l x ↔ y = x ∨ y ∈ l := by
  intro l
  induction l with
  | nil => simp [btreeInsert]
  | cons a rest ih =>
    intro x y
    unfold btreeInsert
    split
    · simp
    · split
      · rename_i h1 h2
        subst h2
        simp
      · simp [ih]
        tauto

theorem btreeInsert_sorted : ∀ (l : List Nat), l.Sorted (· < ·) →
    ∀ x, (btreeInsert l x).Sorted (· < ·) := by
  intro l
  induction l with
  | nil =>
    intro _ x
    simp [btreeInsert]
  | cons a rest ih =>
    intro hs x
    rw [List.sorted_cons] at hs
    obtain ⟨ha, hrest⟩ := hs
    unfold btreeInsert
    split
    · rename_i h1
      rw [List.sorted_cons]
      refine ⟨?_, ?_⟩
      · intro b hb
        rcases List.mem_cons.mp hb with rfl | hb2
        · exact h1
        · exact lt_trans h1 (ha b hb2)
      · rw [List.sorted_cons]
        exact ⟨ha, hrest⟩
    · split
      · rw [List.sorted_cons]
        exact ⟨ha, hrest⟩
      · rename_i h1 h2
        have hax : a < x := by omega
        rw [List.sorted_cons]
        refine ⟨?_, ih hrest x⟩
        intro b hb
        rcases (btreeInsert_mem rest x b).mp hb with rfl | hb2
        · exact hax
        · exact ha b hb2

theorem sparseFold_mem : ∀ (keys : List Nat) (acc : List Nat) (k : Nat),
    k ∈ keys.foldl btreeInsert acc ↔ k ∈ keys ∨ k ∈ acc := by
  intro keys
  induction keys with
  | nil => simp
  | cons a rest ih =>
    intro acc k
    rw [List.foldl_cons, ih, btreeInsert_mem]
    simp
    tauto

theorem sparseFold_sorted : ∀ (keys : List Nat) (acc : List Nat),
    acc.Sorted (· < ·) → (keys.foldl btreeInsert acc).Sorted (· < ·) := by
  intro keys
  induction keys with
  | nil => intro acc h; exact h
  | cons a rest ih =>
    intro acc h
    rw [List.foldl_cons]
    exact ih _ (btreeInsert_sorted acc h a)

theorem sparseBuild_mem (keys : List Nat) (k : Nat) :
    k ∈ sparseBuild keys ↔ k ∈ keys := by
  rw [sparseBuild, sparseFold_mem]
  simp

theorem sparseBuild_sorted (keys : List Nat) : (sparseBuild keys).Sorted (· < ·) :=
  sparseFold_sorted keys [] (by simp)

/-- Core rank/select fact: in a strictly ascending list, indexing at the
count of elements below k recovers k exactly when k is stored. -/
theorem sorted_select_rank : ∀ (vals : List Nat), vals.Sorted (· < ·) → ∀ (k : Nat),
    (vals[vals.countP (fun v => decide (v < k))]? = some k) ↔ k ∈ vals := by
  intro vals
  induction vals with
  | nil => simp
  | cons a rest ih =>
    intro hs k
    rw [List.sorted_cons] at hs
    obtain ⟨ha, hrest⟩ := hs
    rw [List.countP_cons]
    by_cases hak : a < k
    · rw [if_pos (by simpa using hak), List.getElem?_cons_succ, ih hrest k]
      have : ¬(k = a) := by omega
      simp [List.mem_cons, this]
    · have hz : rest.countP (fun v => decide (v < k)) = 0 := by
        rw [List.countP_eq_zero]
        intro v hv
        have := ha v hv
        simp
        omega
      rw [hz, if_neg (by simpa using hak)]
      simp only [Nat.add_zero, List.getElem?_cons_zero]
      have hne : ∀ v ∈ rest, ¬(k = v) := by
        intro v hv
        have := ha v hv
        omega
      constructor
      · intro h
        rw [Option.some_inj] at h
        exact List.mem_cons.mpr (Or.inl h.symm)
      · intro h
        rcases List.mem_cons.mp h with rfl | h2
        · rfl
        · exact absurd rfl (hne k h2)

/-- C1: for each backend, building from any insertion sequence of in-range
keys gives an index whose `contains` answers membership in the inserted
key set, for every key of the universe.  For the dense backend the build
succeeds (no insert panics) and `contains` answers `Some` of the
membership bit. -/
theorem C1_exhaustive_membership (K : Nat) (keys : List Nat)
    (hkeys : ∀ x ∈ keys, x < 2 ^ (2 * K)) :
    (∀ k, k < 2 ^ (2 * K) → (hashContains (hashBuild keys) k = true ↔ k ∈ keys)) ∧
    (∃ d, denseBuild K keys = some d ∧
      ∀ k, k < 2 ^ (2 * K) → (denseContains d k = some true ↔ k ∈ keys)) ∧
    (∀ k, k < 2 ^ (2 * K) → (sparseContains K (sparseBuild keys) k = true ↔ k ∈ keys)) := by
  refine ⟨?_, ?_, ?_⟩
  · intro k _
    rw [hashBuild_contains]
    simp
  · obtain ⟨d, hd, hlen, hget⟩ := denseFold_spec keys (denseNew K)
      (fun x hx => by rw [denseNew_length]; exact hkeys x hx)
    refine ⟨d, hd, ?_⟩
    intro k hk
    rw [denseContains, hget k (by rw [denseNew_length]; omega)]
    have hrepl : (denseNew K).getD k false = false := by
      rw [List.getD_eq_getElem?_getD, denseNew, List.getElem?_eq_getElem
        (by simpa [Nat.shiftLeft_eq] using hk)]
      simp
    rw [hrepl]
    simp
  · intro k hk
    rw [sparseContains, sparseContainsEF, efRank,
      if_neg (by simp [Nat.shiftLeft_eq]; omega)]
    simp only [efSelect]
    rw [decide_eq_true_iff, sorted_select_rank (sparseBuild keys) (sparseBuild_sorted keys) k,
      sparseBuild_mem]

theorem C1_exhaustive_membership_witness :
    (∀ x ∈ [3, 5, 3], x < 2 ^ (2 * 2)) ∧
    ((∀ k, k < 2 ^ (2 * 2) → (hashContains (hashBuild [3, 5, 3]) k = true ↔ k ∈ [3, 5, 3])) ∧
      (∃ d, denseBuild 2 [3, 5, 3] = some d ∧
        ∀ k, k < 2 ^ (2 * 2) → (denseContains d k = some true ↔ k ∈ [3, 5, 3])) ∧
      (∀ k, k < 2 ^ (2 * 2) →
        (sparseContains 2 (sparseBuild [3, 5, 3]) k = true ↔ k ∈ [3, 5, 3]))) :=
  ⟨by decide, C1_exhaustive_membership 2 [3, 5, 3] (by decide)⟩

/-! ## Serialization (src/dbg.rs, `impl Serializable for DenseDbg/SparseDbg`)

The repository impls delegate to the serializers of the external sucds
containers (`BitVector`, `EliasFano`) and rebuild the wrapper around the
deserialized container.  The byte layout lives in the external crate; the
spec (§6) declares it opaque and demands only the round-trip property, so
the container serializers are modelled from the spec as concrete
invertible byte encodings: the bit vector as its bit length followed by
its bits packed eight per byte, and the Elias-Fano set as its universe,
count, and ascending values.  Malformed input deserializes to a
recoverable `none`, per spec §7. -/

/-- Packs eight bits, least significant first, into one byte. -/
def byteOf (b0 b1 b2 b3 b4 b5 b6 b7 : Bool) : Nat :=
  b0.toNat + 2 * b1.toNat + 4 * b2.toNat + 8 * b3.toNat +
    16 * b4.toNat + 32 * b5.toNat + 64 * b6.toNat + 128 * b7.toNat

/-- Unpacks one byte into its eight bits, least significant first. -/
def bitsOfByte (b : Nat) : List Bool :=
  [b.testBit 0, b.testBit 1, b.testBit 2, b.testBit 3,
   b.testBit 4, b.testBit 5, b.testBit 6, b.testBit 7]

/-- Packs a bit list into bytes, eight bits at a time; the writer pads
the list to a whole number of bytes first. -/
def bitsToBytes : List Bool → List Nat
  | b0 :: b1 :: b2 :: b3 :: b4 :: b5 :: b6 :: b7 :: rest =>
    byteOf b0 b1 b2 b3 b4 b5 b6 b7 :: bitsToBytes rest
  | _ => []

/-- Modelled from the spec: `BitVector::serialize_into` as an opaque
invertible layout — the bit length, then the bits padded to whole
bytes. -/
def serializeDense (data : List Bool) : List Nat :=
  data.length :: bitsToBytes (data ++ List.replicate ((8 - data.length % 8) % 8) false)

/-- Modelled from the spec: `BitVector::deserialize_from`; malformed
input yields a recoverable `none`. -/
def deserializeDense (bytes : List Nat) : Option (List Bool) :=
  match bytes with
  | [] => none
  | n :: rest =>
    if rest.length = (n + 7) / 8 then some ((rest.flatMap bitsOfByte).take n) else none

/-- Modelled from the spec: `EliasFano::serialize_into` as universe size,
count, and the ascending stored keys. -/
def serializeSparse (u : Nat) (vals : List Nat) : List Nat := u :: vals.length :: vals

/-- Modelled from the spec: `EliasFano::deserialize_from`; malformed
input yields a recoverable `none`. -/
def deserializeSparse (bytes : List Nat) : Option (Nat × List Nat) :=
  match bytes with
  | u :: n :: rest => if rest.length = n then some (u, rest) else none
  | _ => none

/-! ## Serialization round-trip lemmas -/

theorem bitsOfByte_byteOf : ∀ b0 b1 b2 b3 b4 b5 b6 b7 : Bool,
    bitsOfByte (byteOf b0 b1 b2 b3 b4 b5 b6 b7) = [b0, b1, b2, b3, b4, b5, b6, b7] := by
  decide

theorem bitsToBytes_flat : ∀ (n : Nat) (l : List Bool), l.length ≤ n → 8 ∣ l.length →
    (bitsToBytes l).flatMap bitsOfByte = l := by
  intro n
  induction n with
  | zero =>
    intro l hl _
    have h0 : l = [] := List.eq_nil_of_length_eq_zero (by omega)
    subst h0
    rfl
  | succ m ih =>
    intro l hl hdvd
    rcases l with _ | ⟨b0, l⟩
    · rfl
    rcases l with _ | ⟨b1, l⟩
    · simp only [List.length_cons, List.length_nil] at hdvd; omega
    rcases l with _ | ⟨b2, l⟩
    · simp only [List.length_cons, List.length_nil] at hdvd; omega
    rcases l with _ | ⟨b3, l⟩
    · simp only [List.length_cons, List.length_nil] at hdvd; omega
    rcases l with _ | ⟨b4, l⟩
    · simp only [List.length_cons, List.length_nil] at hdvd; omega
    rcases l with _ | ⟨b5, l⟩
    · simp only [List.length_cons, List.length_nil] at hdvd; omega
    rcases l with _ | ⟨b6, l⟩
    · simp only [List.length_cons, List.length_nil] at hdvd; omega
    rcases l with _ | ⟨b7, l⟩
    · simp only [List.length_cons, List.length_nil] at hdvd; omega
    simp only [List.length_cons] at hl hdvd
    rw [bitsToBytes, List.flatMap_cons, bitsOfByte_byteOf,
      ih l (by omega) (by omega)]
    rfl

theorem bitsToBytes_length : ∀ (n : Nat) (l : List Bool), l.length ≤ n → 8 ∣ l.length →
    (bitsToBytes l).length = l.length / 8 := by
  intro n
  induction n with
  | zero =>
    intro l hl _
    have h0 : l = [] := List.eq_nil_of_length_eq_zero (by omega)
    subst h0
    rfl
  | succ m ih =>
    intro l hl hdvd
    rcases l with _ | ⟨b0, l⟩
    · rfl
    rcases l with _ | ⟨b1, l⟩
    · simp only [List.length_cons, List.length_nil] at hdvd; omega
    rcases l with _ | ⟨b2, l⟩
    · simp only [List.length_cons, List.length_nil] at hdvd; omega
    rcases l with _ | ⟨b3, l⟩
    · simp only [List.length_cons, List.length_nil] at hdvd; omega
    rcases l with _ | ⟨b4, l⟩
    · simp only [List.length_cons, List.length_nil] at hdvd; omega
    rcases l with _ | ⟨b5, l⟩
    · simp only [List.length_cons, List.length_nil] at hdvd; omega
    rcases l with _ | ⟨b6, l⟩
    · simp only [List.length_cons, List.length_nil] at hdvd; omega
    rcases l with _ | ⟨b7, l⟩
    · simp only [List.length_cons, List.length_nil] at hdvd; omega
    simp only [List.length_cons] at hl hdvd ⊢
    rw [bitsToBytes, List.length_cons, ih l (by omega) (by omega)]
    omega

theorem deserializeDense_serializeDense (data : List Bool) :
    deserializeDense (serializeDense data) = some data := by
  rw [serializeDense, deserializeDense]
  have hpadlen : (data ++ List.replicate ((8 - data.length % 8) % 8) false).length =
      8 * ((data.length + 7) / 8) := by
    rw [List.length_append, List.length_replicate]
    omega
  have hdvd : 8 ∣ (data ++ List.replicate ((8 - data.length % 8) % 8) false).length := by
    rw [hpadlen]
    omega
  rw [if_pos (by rw [bitsToBytes_length _ _ (le_refl _) hdvd, hpadlen]; omega)]
  rw [bitsToBytes_flat _ _ (le_refl _) hdvd]
  rw [List.take_left' rfl]

/-! ## Claim theorem for serialization -/

/-- C9: for the dense and sparse backends, deserializing the serialized
index restores an index whose `contains` agrees with the original on
every key (in particular on the whole universe); in this development the
restored state is byte-for-byte the original. -/
theorem C9_serialization_roundtrip :
    (∀ data : List Bool, ∃ d2, deserializeDense (serializeDense data) = some d2 ∧
      ∀ k, denseContains d2 k = denseContains data k) ∧
    (∀ (u : Nat) (vals : List Nat), ∃ p2,
      deserializeSparse (serializeSparse u vals) = some p2 ∧
      ∀ k, sparseContainsEF p2.1 p2.2 k = sparseContainsEF u vals k) := by
  constructor
  · intro data
    exact ⟨data, deserializeDense_serializeDense data, fun k => rfl⟩
  · intro u vals
    refine ⟨(u, vals), ?_, fun k => rfl⟩
    rw [serializeSparse, deserializeSparse]
    simp

end TinyDbg
